import Mathlib

/-!
Shallow embedding of the CoopSim simulation engine (`src/agent.rs`, `src/env.rs`).

Modelling conventions:
* `f32` scores, noise probabilities and random draws are modelled as `ℚ`;
  all scores produced by the engine are sums of the exact small values
  0, 3 and 4, which `f32` represents exactly, and `partial_cmp` is total
  on them.
* `usize` coordinates are modelled as `ℕ`.  `checked_add_signed` is
  modelled without the `usize::MAX` overflow check: the result is
  immediately bounded by the grid dimension, so the two models agree on
  every coordinate that any grid can contain.
* Randomness (`thread_rng` draws) is threaded explicitly: the `Random`
  strategy's uniform choice becomes an oracle `randAct : Coord → Coord →
  Action` keyed by the ordered pair being decided, and each noise draw of
  `Action::with_noise` in phase 3 becomes a rational from one of two
  oracles `uM`/`uT` (the draw for the visiting cell's own action and the
  draw for its neighbor's action), keyed by the visiting cell and the
  neighbor.  A real draw lies in `[0,1)`; theorems that need "noise 0
  never flips" assume the draws are nonnegative.
* `HashMap<Coord, Vec<Action>>` (per-neighbor history) and
  `HashMap<(Coord, Coord), Action>` (decided actions) are modelled as
  association lists; the engine inserts each key at most once, and
  lookups are by key only, so iteration-order differences are
  unobservable.
-/

namespace CoopSim

/-- `Action` from `src/agent.rs`: the two-valued move type. -/
inductive Action : Type where
  | Coop : Action
  | Deflect : Action
deriving DecidableEq, Repr

/-- The flip performed inside `Action::with_noise` when the draw is below
the probability. -/
def Action.flipped : Action → Action
  | Action.Coop => Action.Deflect
  | Action.Deflect => Action.Coop

/-- `Action::with_noise` from `src/agent.rs`: `rng.gen::<f32>() < prob`
flips the action, otherwise it is returned unchanged.  The random draw
`u` is passed explicitly. -/
def Action.withNoise (a : Action) (prob u : ℚ) : Action :=
  if u < prob then a.flipped else a

/-- `Strategy` from `src/agent.rs` (variant order as in the source). -/
inductive Strategy : Type where
  | Deflect : Strategy
  | TicToc : Strategy
  | Coop : Strategy
  | Random : Strategy
deriving DecidableEq, Repr

/-- `Strategy::get_action` from `src/agent.rs`.  `history.last()` is
`List.getLast?`, `unwrap_or(&Action::Coop)` is `Option.getD`.  The
`Random` arm's `[Coop, Deflect].choose(&mut rand)` draw is passed
explicitly as `randPick`. -/
def Strategy.get_action (s : Strategy) (history : List Action) (randPick : Action) : Action :=
  match s with
  | Strategy.Deflect => Action.Deflect
  | Strategy.TicToc => history.getLast?.getD Action.Coop
  | Strategy.Coop => Action.Coop
  | Strategy.Random => randPick

/-- `Coord` from `src/agent.rs`: `(usize, usize)` row/column pair. -/
abbrev Coord : Type := ℕ × ℕ

/-- `Agent` from `src/agent.rs`.  The `HashMap<Coord, Vec<Action>>`
history is an association list. -/
structure Agent : Type where
  coord : Coord
  history : List (Coord × List Action)
  strategy : Strategy
  score : ℚ
deriving DecidableEq, Repr

/-- `HashMap::get` on the history map: the value stored at key `c`, if
any. -/
def histGet (h : List (Coord × List Action)) (c : Coord) : Option (List Action) :=
  (h.find? (fun e => e.1 = c)).map (fun e => e.2)

/-- The history mutation inside `Agent::score`: `get_mut` + `push` when
the key is present, `insert` of a one-element vector otherwise. -/
def histRecord (h : List (Coord × List Action)) (c : Coord) (a : Action) :
    List (Coord × List Action) :=
  match h.find? (fun e => e.1 = c) with
  | some _ => h.map (fun e => if e.1 = c then (e.1, e.2 ++ [a]) else e)
  | none => h ++ [(c, [a])]

/-- `Iterator::max_by` with the comparator
`a.score.partial_cmp(&b.score)` from `Agent::adapt`: fold that keeps the
accumulator only when it is strictly greater, so the last of equally
maximal elements wins. -/
def maxByScore (l : List Agent) : Option Agent :=
  match l with
  | [] => none
  | x :: xs => some (xs.foldl (fun acc y => if acc.score > y.score then acc else y) x)

/-- `Agent::adapt` from `src/agent.rs`: copy the best-scoring supplied
neighbor's strategy when its score strictly exceeds the agent's own. -/
def Agent.adapt (a : Agent) (neighbors : List Agent) : Agent :=
  match maxByScore neighbors with
  | some n => if n.score > a.score then { a with strategy := n.strategy } else a
  | none => a

/-- `Agent::get_action` from `src/agent.rs`: look up the history kept
for the other agent's coordinate (`unwrap_or` the empty vector) and
delegate to the strategy. -/
def Agent.get_action (a : Agent) (other : Agent) (randPick : Action) : Action :=
  a.strategy.get_action ((histGet a.history other.coord).getD []) randPick

/-- `Agent::score` (the method) from `src/agent.rs`: append the
opponent's observed action to the per-opponent history and add the
payoff to the cumulative score (`self.score * 1.0 + score` in the
source).  Renamed `recordScore` because the `score` field occupies the
name in Lean. -/
def Agent.recordScore (a : Agent) (other : Agent) (otherAction : Action) (pay : ℚ) : Agent :=
  { a with
    history := histRecord a.history other.coord otherAction
    score := a.score * 1 + pay }

/-- `Agent::new` from `src/agent.rs`. -/
def Agent.new (coord : Coord) (strategy : Strategy) : Agent :=
  { coord := coord, history := [], strategy := strategy, score := 0 }

/-- `Environment` from `src/env.rs`: dimensions, noise probability and
the row-major agent grid. -/
structure Environment : Type where
  num_row : ℕ
  num_col : ℕ
  noise : ℚ
  grid : List Agent
deriving DecidableEq, Repr

/-- `Metric` from `src/env.rs`.  The two `BTreeMap`s are modelled as
partial functions from `Strategy` (`none` = key absent); `coop_actions`
is the `usize` count before the source's cast to `i32`. -/
structure Metric : Type where
  strategies : Strategy → Option ℕ
  max_score : Strategy → Option ℚ
  coop_actions : ℕ
  snapshot : List (List Strategy)

/-- `usize::checked_add_signed`, without the `usize::MAX` bound (see the
file comment): `none` exactly when the signed sum is negative. -/
def checkedAddSigned (s : ℕ) (d : ℤ) : Option ℕ :=
  if 0 ≤ (s : ℤ) + d then some ((s : ℤ) + d).toNat else none

/-- The `upper` closure in `Environment::neighbor_coord`:
`(s < bond).then_some(s)`. -/
def upperBound (bond s : ℕ) : Option ℕ :=
  if s < bond then some s else none

/-- `Environment::neighbor_coord` from `src/env.rs`: for each offset
`(dx, dy)` in row-major order over `{-1,0,1}²` minus `(0,0)`, keep the
offset coordinate when both components survive `checked_add_signed` and
the grid bound. -/
def neighbor_coord (numRow numCol : ℕ) (coord : Coord) : List Coord :=
  ([-1, 0, 1] : List ℤ).flatMap (fun dx =>
    ([-1, 0, 1] : List ℤ).filterMap (fun dy =>
      if dx ≠ 0 ∨ dy ≠ 0 then
        match (checkedAddSigned coord.1 dx).bind (upperBound numRow),
              (checkedAddSigned coord.2 dy).bind (upperBound numCol) with
        | some x, some y => some (x, y)
        | _, _ => none
      else none))

/-- `Environment::to_vec_index` from `src/env.rs`: row-major index
`num_col * row + col`. -/
def to_vec_index (numCol : ℕ) (c : Coord) : ℕ :=
  numCol * c.1 + c.2

/-- The coordinates visited by `Environment::for_each_cell` (and by the
constructor's grid-filling loops), in row-major order. -/
def allCoords (numRow numCol : ℕ) : List Coord :=
  (List.range numRow).flatMap (fun i => (List.range numCol).map (fun j => (i, j)))

/-- The neighbor references handed to the closure by
`Environment::for_each_cell`: the agents stored at the neighbor
coordinates' row-major indices in the current grid.  In the source
every index is asserted in bounds; an out-of-range index (impossible
for grids built by the constructor) contributes nothing here. -/
def neighborAgents (numCol : ℕ) (g : List Agent) (cs : List Coord) : List Agent :=
  cs.filterMap (fun c => g[to_vec_index numCol c]?)

/-- `Environment::for_each_cell` from `src/env.rs`, generalised over an
accumulator `σ` so one combinator serves all three `step` passes: visit
every cell in row-major order, hand the closure the cell's current
value and the current values of its neighbors, and write the returned
agent back into the cell's slot in place.  A cell whose index is out of
range (the source's assertion failure, unreachable for constructor
grids) is skipped. -/
def for_each_cell {σ : Type} (numRow numCol : ℕ)
    (f : Agent → List Agent → σ → Agent × σ)
    (g : List Agent) (s : σ) : List Agent × σ :=
  (allCoords numRow numCol).foldl
    (fun gs p =>
      match gs.1[to_vec_index numCol p]? with
      | none => gs
      | some a =>
        (gs.1.set (to_vec_index numCol p)
          (f a (neighborAgents numCol gs.1 (neighbor_coord numRow numCol p)) gs.2).1,
         (f a (neighborAgents numCol gs.1 (neighbor_coord numRow numCol p)) gs.2).2))
    (g, s)

/-- `Environment::score` from `src/env.rs`: the payoff table. -/
def Environment.score (a b : Action) : ℚ :=
  match a, b with
  | Action.Coop, Action.Coop => 3
  | Action.Deflect, Action.Coop => 4
  | _, _ => 0

/-- Phase 1 of `Environment::step`: `curr.adapt(neighbors)` for every
cell, in place. -/
def adaptPass (numRow numCol : ℕ) (g : List Agent) : List Agent :=
  (for_each_cell numRow numCol (fun a ns s => (a.adapt ns, s)) g ()).1

/-- The decided-actions map of phase 2: an association list keyed by
ordered coordinate pairs.  Each key is inserted at most once, so a plain
append models `HashMap::insert`. -/
abbrev ActionsMap : Type := List ((Coord × Coord) × Action)

/-- `actions[&key]` from phase 3 of `Environment::step`.  The source
indexes the `HashMap` directly (a panic if the key were absent); every
key queried in phase 3 of a constructor-built grid was inserted in
phase 2, so the `Coop` fallback is never consulted there. -/
def lookupAction (m : ActionsMap) (k : Coord × Coord) : Action :=
  ((m.find? (fun e => e.1 = k)).map (fun e => e.2)).getD Action.Coop

/-- Phase 2 of `Environment::step`: for every cell and each of its
neighbors, record the decided (pre-noise) action for the ordered pair
`(cell, neighbor)`; the grid is written back unchanged. -/
def decidePass (numRow numCol : ℕ) (randAct : Coord → Coord → Action)
    (g : List Agent) : List Agent × ActionsMap :=
  for_each_cell numRow numCol
    (fun a ns m =>
      (a, ns.foldl
        (fun m' n => m' ++ [((a.coord, n.coord), a.get_action n (randAct a.coord n.coord))])
        m))
    g ([] : ActionsMap)

/-- Phase 3 of `Environment::step`: for every cell and each of its
neighbors, fetch both decided actions, apply an independent noise draw
to each, and let the cell record the neighbor's played action together
with the payoff from the table. -/
def applyPass (numRow numCol : ℕ) (noise : ℚ) (uM uT : Coord → Coord → ℚ)
    (acts : ActionsMap) (g : List Agent) : List Agent :=
  (for_each_cell numRow numCol
    (fun a ns s =>
      (ns.foldl
        (fun a' n =>
          let myAction := (lookupAction acts (a'.coord, n.coord)).withNoise noise (uM a'.coord n.coord)
          let theirAction := (lookupAction acts (n.coord, a'.coord)).withNoise noise (uT a'.coord n.coord)
          a'.recordScore n theirAction (Environment.score myAction theirAction))
        a, s))
    g ()).1

/-- The two `BTreeMap` accumulations after the three passes: per-strategy
agent count (`get`–`unwrap_or(0)`–`+1`–`insert`) and per-strategy max
score (`get`–`unwrap_or(0.0)`–`max`–`insert`). -/
def accumMaps (g : List Agent) : (Strategy → Option ℕ) × (Strategy → Option ℚ) :=
  g.foldl
    (fun ms a =>
      (fun s => if s = a.strategy then some ((ms.1 a.strategy).getD 0 + 1) else ms.1 s,
       fun s => if s = a.strategy then some (max ((ms.2 a.strategy).getD 0) a.score) else ms.2 s))
    (fun _ => none, fun _ => none)

/-- `slice::chunks` as used for the snapshot.  A chunk size of zero
panics in the source; it is unreachable there (a zero-column grid is
empty) and returns `[]` here. -/
def chunksOf {α : Type} (n : ℕ) : List α → List (List α)
  | [] => []
  | x :: xs =>
    if n = 0 then []
    else (x :: xs).take n :: chunksOf n ((x :: xs).drop n)
termination_by l => l.length
decreasing_by
  simp only [List.length_drop, List.length_cons]
  omega

/-- `Environment::step` from `src/env.rs`: the three passes followed by
metric aggregation.  Returns the advanced environment together with the
`Metric` (the Rust method mutates `self` and returns the metric). -/
def Environment.step (e : Environment) (randAct : Coord → Coord → Action)
    (uM uT : Coord → Coord → ℚ) : Environment × Metric :=
  let g1 := adaptPass e.num_row e.num_col e.grid
  let d := decidePass e.num_row e.num_col randAct g1
  let g2 := applyPass e.num_row e.num_col e.noise uM uT d.2 d.1
  let ms := accumMaps g2
  ({ e with grid := g2 },
   { strategies := ms.1
     max_score := ms.2
     coop_actions := (d.2.map (fun kv => kv.2)).countP (fun a => a = Action.Coop)
     snapshot := chunksOf e.num_col (g2.map Agent.strategy) })

/-- `Environment::new_with_agent_func` from `src/env.rs`: fill the grid
row-major with the factory's agents; no validation of the dimensions or
the noise probability is performed. -/
def Environment.new_with_agent_func (num_row num_col : ℕ) (noise : ℚ)
    (agent_fn : Coord → Agent) : Environment :=
  { num_row := num_row
    num_col := num_col
    noise := noise
    grid := (allCoords num_row num_col).map agent_fn }

/-- Reference double-buffered adapt pass, the comparison point of the
simultaneous-move claim: every cell's new value is computed from the
start-of-pass grid (reads from `g`, writes into a separate buffer). -/
def adaptPassSnapshot (numRow numCol : ℕ) (g : List Agent) : List Agent :=
  (allCoords numRow numCol).foldl
    (fun g' p =>
      match g[to_vec_index numCol p]? with
      | none => g'
      | some a =>
        g'.set (to_vec_index numCol p)
          (a.adapt (neighborAgents numCol g (neighbor_coord numRow numCol p))))
    g

/-- Phase 3 specialised to noise probability zero: with every draw
nonnegative, `with_noise` returns its input unchanged, so the decided
actions are played as-is.  Proven equal to `applyPass` at noise `0` in
`applyPass_zero`. -/
def applyPassNoNoise (numRow numCol : ℕ) (acts : ActionsMap) (g : List Agent) : List Agent :=
  (for_each_cell numRow numCol
    (fun a ns s =>
      (ns.foldl
        (fun a' n =>
          a'.recordScore n (lookupAction acts (n.coord, a'.coord))
            (Environment.score (lookupAction acts (a'.coord, n.coord))
              (lookupAction acts (n.coord, a'.coord))))
        a, s))
    g ()).1

/-- The per-ordered-pair decided-action list: for every cell (row-major)
and each of its neighbors, one entry holding the cell's decided
(pre-noise) action toward that neighbor.  This is the reference reading
of "one decided action per cell per neighbor" against which the
`coop_actions` metric is checked. -/
def decidedActions (numRow numCol : ℕ) (randAct : Coord → Coord → Action)
    (g : List Agent) : ActionsMap :=
  (allCoords numRow numCol).flatMap (fun p =>
    match g[to_vec_index numCol p]? with
    | none => []
    | some a =>
      (neighborAgents numCol g (neighbor_coord numRow numCol p)).map
        (fun n => ((a.coord, n.coord), a.get_action n (randAct a.coord n.coord))))

/-! ### Helper lemmas -/

lemma getElem?_lt_length {α : Type} {l : List α} {i : ℕ} {a : α}
    (h : l[i]? = some a) : i < l.length := by
  by_contra hc
  push_neg at hc
  rw [List.getElem?_eq_none hc] at h
  exact Option.noConfusion h

lemma set_getElem?_self {α : Type} {l : List α} {i : ℕ} {a : α}
    (h : l[i]? = some a) : l.set i a = l := by
  induction l generalizing i with
  | nil => rfl
  | cons x xs ih =>
    cases i with
    | zero => simp_all
    | succ n => simp_all [List.set]

/-- Pointwise transfer of a reflexive transitive relation through the
in-place cell traversal: if the closure always relates the incoming
agent to the agent it writes back, then every slot of the final grid is
related to the corresponding slot of the initial grid. -/
lemma for_each_cell_rel {σ : Type} {P : Agent → Agent → Prop}
    (hrefl : ∀ a, P a a) (htrans : ∀ a b c, P a b → P b c → P a c)
    {f : Agent → List Agent → σ → Agent × σ}
    (hf : ∀ a ns s, P a (f a ns s).1)
    (numRow numCol : ℕ) :
    ∀ (g : List Agent) (s : σ) (i : ℕ) (a : Agent), g[i]? = some a →
      ∃ b, ((for_each_cell numRow numCol f g s).1)[i]? = some b ∧ P a b := by
  unfold for_each_cell
  generalize allCoords numRow numCol = ps
  induction ps with
  | nil =>
    intro g s i a h
    exact ⟨a, h, hrefl a⟩
  | cons p t ih =>
    intro g s i a h
    simp only [List.foldl_cons]
    rcases hx : g[to_vec_index numCol p]? with _ | x
    · simpa [hx] using ih g s i a h
    · simp only [hx]
      by_cases hip : i = to_vec_index numCol p
      · have hax : a = x := by rw [hip, hx] at h; exact (Option.some.inj h).symm
        have hset :
            (g.set (to_vec_index numCol p)
              (f x (neighborAgents numCol g (neighbor_coord numRow numCol p)) s).1)[i]?
              = some (f x (neighborAgents numCol g (neighbor_coord numRow numCol p)) s).1 := by
          rw [hip]
          exact List.getElem?_set_eq_of_lt _ (getElem?_lt_length (hip ▸ h))
        obtain ⟨b, hb, hpb⟩ := ih _ _ i _ hset
        exact ⟨b, hb, htrans _ _ _ (hax ▸ hf x _ s) hpb⟩
      · have hset :
            (g.set (to_vec_index numCol p)
              (f x (neighborAgents numCol g (neighbor_coord numRow numCol p)) s).1)[i]?
              = some a := by
          rw [List.getElem?_set_ne (fun hc => hip hc.symm)]
          exact h
        obtain ⟨b, hb, hpb⟩ := ih _ _ i a hset
        exact ⟨b, hb, hpb⟩

/-- A cell pass whose closure writes every agent back unchanged leaves
the grid unchanged (phase 2). -/
lemma for_each_cell_fst_id {σ : Type} {f : Agent → List Agent → σ → Agent × σ}
    (hf : ∀ a ns s, (f a ns s).1 = a) (numRow numCol : ℕ) :
    ∀ (g : List Agent) (s : σ), (for_each_cell numRow numCol f g s).1 = g := by
  unfold for_each_cell
  generalize allCoords numRow numCol = ps
  induction ps with
  | nil => intro g s; rfl
  | cons p t ih =>
    intro g s
    simp only [List.foldl_cons]
    rcases hx : g[to_vec_index numCol p]? with _ | x
    · simpa [hx] using ih g s
    · simp only [hx]
      rw [hf x (neighborAgents numCol g (neighbor_coord numRow numCol p)) s,
        set_getElem?_self hx]
      exact ih g _

/-- When the closure writes every agent back unchanged, the accumulator
of the traversal is the fold of the closure's state component over the
cells of the (constant) grid. -/
lemma for_each_cell_snd_of_fst_id {σ : Type} {f : Agent → List Agent → σ → Agent × σ}
    (hf : ∀ a ns s, (f a ns s).1 = a) (numRow numCol : ℕ) :
    ∀ (g : List Agent) (s : σ),
      (for_each_cell numRow numCol f g s).2 =
        (allCoords numRow numCol).foldl
          (fun s' p =>
            match g[to_vec_index numCol p]? with
            | none => s'
            | some a => (f a (neighborAgents numCol g (neighbor_coord numRow numCol p)) s').2)
          s := by
  unfold for_each_cell
  generalize allCoords numRow numCol = ps
  induction ps with
  | nil => intro g s; rfl
  | cons p t ih =>
    intro g s
    simp only [List.foldl_cons]
    rcases hx : g[to_vec_index numCol p]? with _ | x
    · simpa [hx] using ih g s
    · simp only [hx]
      rw [hf x (neighborAgents numCol g (neighbor_coord numRow numCol p)) s,
        set_getElem?_self hx]
      exact ih g _

lemma foldl_append_singletons {α β : Type} (e : α → β) :
    ∀ (ns : List α) (m : List β),
      ns.foldl (fun m' n => m' ++ [e n]) m = m ++ ns.map e := by
  intro ns
  induction ns with
  | nil => intro m; simp
  | cons n t ih => intro m; simp [ih]

lemma foldl_append_flat {α β : Type} (k : α → List β) :
    ∀ (ps : List α) (s : List β),
      ps.foldl (fun s' p => s' ++ k p) s = s ++ ps.flatMap k := by
  intro ps
  induction ps with
  | nil => intro s; simp
  | cons p t ih => intro s; simp [ih]

lemma decidePass_fst (numRow numCol : ℕ) (randAct : Coord → Coord → Action)
    (g : List Agent) : (decidePass numRow numCol randAct g).1 = g :=
  for_each_cell_fst_id (fun _ _ _ => rfl) numRow numCol g []

lemma decidePass_snd (numRow numCol : ℕ) (randAct : Coord → Coord → Action)
    (g : List Agent) :
    (decidePass numRow numCol randAct g).2 = decidedActions numRow numCol randAct g := by
  unfold decidePass decidedActions
  rw [for_each_cell_snd_of_fst_id (fun _ _ _ => rfl)]
  have hstep :
      (fun (s' : ActionsMap) (p : Coord) =>
        match g[to_vec_index numCol p]? with
        | none => s'
        | some a =>
          ((fun (a : Agent) (ns : List Agent) (m : ActionsMap) =>
            (a, ns.foldl
              (fun m' n => m' ++ [((a.coord, n.coord), a.get_action n (randAct a.coord n.coord))])
              m)) a (neighborAgents numCol g (neighbor_coord numRow numCol p)) s').2)
      = (fun (s' : ActionsMap) (p : Coord) =>
          s' ++
            match g[to_vec_index numCol p]? with
            | none => []
            | some a =>
              (neighborAgents numCol g (neighbor_coord numRow numCol p)).map
                (fun n => ((a.coord, n.coord), a.get_action n (randAct a.coord n.coord)))) := by
    funext s' p
    rcases hx : g[to_vec_index numCol p]? with _ | x
    · simp
    · simp [foldl_append_singletons]
  rw [hstep, foldl_append_flat]
  simp

lemma foldl_max_spec (xs : List Agent) :
    ∀ x : Agent,
      (xs.foldl (fun acc y => if acc.score > y.score then acc else y) x) ∈ x :: xs ∧
      x.score ≤ (xs.foldl (fun acc y => if acc.score > y.score then acc else y) x).score ∧
      ∀ y ∈ xs, y.score ≤ (xs.foldl (fun acc y => if acc.score > y.score then acc else y) x).score := by
  induction xs with
  | nil => intro x; simp
  | cons y t ih =>
    intro x
    simp only [List.foldl_cons]
    by_cases h : x.score > y.score
    · simp only [if_pos h]
      obtain ⟨hmem, hle, hall⟩ := ih x
      refine ⟨?_, hle, ?_⟩
      · rcases List.mem_cons.mp hmem with h1 | h1
        · rw [h1]; exact List.mem_cons_self _ _
        · exact List.mem_cons_of_mem _ (List.mem_cons_of_mem _ h1)
      · intro z hz
        rcases List.mem_cons.mp hz with rfl | hz'
        · exact le_trans (le_of_lt h) hle
        · exact hall z hz'
    · simp only [if_neg h]
      push_neg at h
      obtain ⟨hmem, hle, hall⟩ := ih y
      refine ⟨?_, le_trans h hle, ?_⟩
      · rcases List.mem_cons.mp hmem with h1 | h1
        · rw [h1]; exact List.mem_cons_of_mem _ (List.mem_cons_self _ _)
        · exact List.mem_cons_of_mem _ (List.mem_cons_of_mem _ h1)
      · intro z hz
        rcases List.mem_cons.mp hz with rfl | hz'
        · exact hle
        · exact hall z hz'

lemma maxByScore_spec (x : Agent) (xs : List Agent) :
    ∃ m, maxByScore (x :: xs) = some m ∧ m ∈ x :: xs ∧ ∀ y ∈ x :: xs, y.score ≤ m.score := by
  obtain ⟨hmem, hle, hall⟩ := foldl_max_spec xs x
  refine ⟨_, rfl, hmem, ?_⟩
  intro y hy
  rcases List.mem_cons.mp hy with rfl | hy'
  · exact hle
  · exact hall y hy'

lemma foldl_max_keep (m : Agent) :
    ∀ l : List Agent, (∀ y ∈ l, y.score < m.score) →
      l.foldl (fun acc y => if acc.score > y.score then acc else y) m = m := by
  intro l
  induction l with
  | nil => intro _; rfl
  | cons y t ih =>
    intro h
    simp only [List.foldl_cons, if_pos (h y (List.mem_cons_self _ _))]
    exact ih (fun z hz => h z (List.mem_cons_of_mem _ hz))

lemma foldl_max_le (m : Agent) :
    ∀ (l : List Agent) (x : Agent), x.score ≤ m.score → (∀ y ∈ l, y.score ≤ m.score) →
      (l.foldl (fun acc y => if acc.score > y.score then acc else y) x).score ≤ m.score := by
  intro l
  induction l with
  | nil => intro x hx _; exact hx
  | cons y t ih =>
    intro x hx h
    simp only [List.foldl_cons]
    by_cases hc : x.score > y.score
    · simp only [if_pos hc]
      exact ih x hx (fun z hz => h z (List.mem_cons_of_mem _ hz))
    · simp only [if_neg hc]
      exact ih y (h y (List.mem_cons_self _ _)) (fun z hz => h z (List.mem_cons_of_mem _ hz))

lemma maxByScore_last_max (m : Agent) (l₁ l₂ : List Agent)
    (h₁ : ∀ y ∈ l₁, y.score ≤ m.score) (h₂ : ∀ y ∈ l₂, y.score < m.score) :
    maxByScore (l₁ ++ m :: l₂) = some m := by
  cases l₁ with
  | nil =>
    simp only [List.nil_append, maxByScore]
    rw [foldl_max_keep m l₂ h₂]
  | cons x t =>
    simp only [List.cons_append, maxByScore, List.foldl_append, List.foldl_cons]
    have hacc :
        (t.foldl (fun acc y => if acc.score > y.score then acc else y) x).score ≤ m.score :=
      foldl_max_le m t x (h₁ x (List.mem_cons_self _ _))
        (fun z hz => h₁ z (List.mem_cons_of_mem _ hz))
    rw [if_neg (not_lt.mpr hacc), foldl_max_keep m l₂ h₂]

lemma adapt_preserves (a : Agent) (ns : List Agent) :
    (a.adapt ns).score = a.score ∧ (a.adapt ns).coord = a.coord ∧
      (a.adapt ns).history = a.history := by
  unfold Agent.adapt
  cases maxByScore ns with
  | none => exact ⟨rfl, rfl, rfl⟩
  | some n => by_cases h : n.score > a.score <;> simp [h]

/-- Phase 1 never touches scores, coordinates or histories: every slot
of the post-adapt grid agrees with the initial grid on those fields. -/
lemma adaptPass_preserves_fields (numRow numCol : ℕ) (g : List Agent) (i : ℕ) (a : Agent)
    (h : g[i]? = some a) :
    ∃ b, (adaptPass numRow numCol g)[i]? = some b ∧
      b.score = a.score ∧ b.coord = a.coord ∧ b.history = a.history := by
  unfold adaptPass
  exact for_each_cell_rel
    (P := fun x y => y.score = x.score ∧ y.coord = x.coord ∧ y.history = x.history)
    (fun _ => ⟨rfl, rfl, rfl⟩)
    (fun _ _ _ hab hbc => ⟨hbc.1.trans hab.1, hbc.2.1.trans hab.2.1, hbc.2.2.trans hab.2.2⟩)
    (fun x ns _ => adapt_preserves x ns)
    numRow numCol g () i a h

lemma score_nonneg (a b : Action) : 0 ≤ Environment.score a b := by
  cases a <;> cases b <;> norm_num [Environment.score]

lemma recordScore_le (a other : Agent) (act : Action) (pay : ℚ) (hp : 0 ≤ pay) :
    a.score ≤ (a.recordScore other act pay).score := by
  simp only [Agent.recordScore, mul_one]
  linarith

lemma foldl_score_le (f : Agent → Agent → Agent) (hstep : ∀ a n, a.score ≤ (f a n).score) :
    ∀ (ns : List Agent) (a : Agent), a.score ≤ (ns.foldl f a).score := by
  intro ns
  induction ns with
  | nil => intro a; exact le_refl _
  | cons n t ih =>
    intro a
    simp only [List.foldl_cons]
    exact le_trans (hstep a n) (ih (f a n))

/-- Phase 3 never decreases any agent's score: every payoff added by
`recordScore` comes from the payoff table and is nonnegative. -/
lemma applyPass_score_le (numRow numCol : ℕ) (noise : ℚ) (uM uT : Coord → Coord → ℚ)
    (acts : ActionsMap) (g : List Agent) (i : ℕ) (a : Agent) (h : g[i]? = some a) :
    ∃ b, (applyPass numRow numCol noise uM uT acts g)[i]? = some b ∧ a.score ≤ b.score := by
  unfold applyPass
  exact for_each_cell_rel (P := fun x y => x.score ≤ y.score)
    (fun _ => le_refl _) (fun _ _ _ hab hbc => le_trans hab hbc)
    (fun x ns _ =>
      foldl_score_le _ (fun a' n => recordScore_le a' n _ _ (score_nonneg _ _)) ns x)
    numRow numCol g () i a h

lemma allCoords_succ (R C : ℕ) :
    allCoords (R + 1) C = allCoords R C ++ (List.range C).map (fun j => (R, j)) := by
  unfold allCoords
  rw [List.range_succ]
  simp [List.flatMap_append]

lemma allCoords_length (R C : ℕ) : (allCoords R C).length = R * C := by
  induction R with
  | zero => simp [allCoords]
  | succ n ih =>
    rw [allCoords_succ]
    simp [ih]
    ring

lemma allCoords_getElem (R C i j : ℕ) (hi : i < R) (hj : j < C) :
    (allCoords R C)[C * i + j]? = some (i, j) := by
  induction R with
  | zero => omega
  | succ n ih =>
    rw [allCoords_succ]
    by_cases hin : i < n
    · have h2 : C * i + j < (allCoords n C).length := by
        rw [allCoords_length]
        have h1 : C * (i + 1) ≤ C * n := Nat.mul_le_mul_left C hin
        rw [Nat.mul_succ] at h1
        rw [Nat.mul_comm n C]
        omega
      rw [List.getElem?_append, if_pos h2]
      exact ih hin
    · have hie : i = n := by omega
      subst hie
      have hge : (allCoords i C).length ≤ C * i + j := by
        rw [allCoords_length, Nat.mul_comm]
        omega
      rw [List.getElem?_append, if_neg (by omega)]
      have hidx : C * i + j - (allCoords i C).length = j := by
        rw [allCoords_length, Nat.mul_comm]
        omega
      rw [hidx, List.getElem?_map, List.getElem?_range hj]
      rfl

lemma cas_neg_one (s : ℕ) : checkedAddSigned s (-1) = if s = 0 then none else some (s - 1) := by
  unfold checkedAddSigned
  cases s with
  | zero => norm_num
  | succ n =>
    have h : (0 : ℤ) ≤ (n.succ : ℤ) + (-1) := by push_cast; omega
    rw [if_pos h, if_neg (Nat.succ_ne_zero n)]
    have ht : ((n.succ : ℤ) + (-1)).toNat = n.succ - 1 := by omega
    rw [ht]

lemma cas_zero (s : ℕ) : checkedAddSigned s 0 = some s := by
  unfold checkedAddSigned
  norm_num

lemma cas_one (s : ℕ) : checkedAddSigned s 1 = some (s + 1) := by
  unfold checkedAddSigned
  rw [if_pos (by positivity)]
  have ht : ((s : ℤ) + 1).toNat = s + 1 := by omega
  rw [ht]

/-- Closed form for the neighbor count: the number of valid row offsets
times the number of valid column offsets, minus the excluded center. -/
lemma neighbor_coord_length (R C r c : ℕ) (hr : r < R) (hc : c < C) :
    (neighbor_coord R C (r, c)).length =
      ((if 1 ≤ r then 1 else 0) + 1 + (if r + 1 < R then 1 else 0)) *
      ((if 1 ≤ c then 1 else 0) + 1 + (if c + 1 < C then 1 else 0)) - 1 := by
  have har : r - 1 < R := by omega
  have hac : c - 1 < C := by omega
  by_cases h1 : r = 0 <;> by_cases h3 : c = 0
  · have hy1 : ¬ (1 ≤ r) := by omega
    have hy3 : ¬ (1 ≤ c) := by omega
    simp only [neighbor_coord, List.flatMap_cons, List.flatMap_nil, List.filterMap_cons,
      cas_neg_one, cas_zero, cas_one, if_pos h1, if_pos h3, upperBound, Option.bind_some]
    by_cases h2 : r + 1 < R <;> by_cases h4 : c + 1 < C <;>
      simp [hr, hc, h2, h4, hy1, hy3]
  · have hy1 : ¬ (1 ≤ r) := by omega
    have hy3 : 1 ≤ c := by omega
    simp only [neighbor_coord, List.flatMap_cons, List.flatMap_nil, List.filterMap_cons,
      cas_neg_one, cas_zero, cas_one, if_pos h1, if_neg h3, upperBound, Option.bind_some]
    by_cases h2 : r + 1 < R <;> by_cases h4 : c + 1 < C <;>
      simp [hr, hc, h2, h4, hy1, hy3, hac]
  · have hy1 : 1 ≤ r := by omega
    have hy3 : ¬ (1 ≤ c) := by omega
    simp only [neighbor_coord, List.flatMap_cons, List.flatMap_nil, List.filterMap_cons,
      cas_neg_one, cas_zero, cas_one, if_neg h1, if_pos h3, upperBound, Option.bind_some]
    by_cases h2 : r + 1 < R <;> by_cases h4 : c + 1 < C <;>
      simp [hr, hc, h2, h4, hy1, hy3, har]
  · have hy1 : 1 ≤ r := by omega
    have hy3 : 1 ≤ c := by omega
    simp only [neighbor_coord, List.flatMap_cons, List.flatMap_nil, List.filterMap_cons,
      cas_neg_one, cas_zero, cas_one, if_neg h1, if_neg h3, upperBound, Option.bind_some]
    by_cases h2 : r + 1 < R <;> by_cases h4 : c + 1 < C <;>
      simp [hr, hc, h2, h4, hy1, hy3, har, hac]

lemma bind_upper_facts {s bond x : ℕ} {d : ℤ}
    (h : (checkedAddSigned s d).bind (upperBound bond) = some x) :
    (x : ℤ) = (s : ℤ) + d ∧ x < bond := by
  unfold checkedAddSigned at h
  by_cases h0 : (0 : ℤ) ≤ (s : ℤ) + d
  · rw [if_pos h0] at h
    simp only [Option.some_bind, upperBound] at h
    split at h
    · have hx := Option.some.inj h
      constructor
      · omega
      · omega
    · exact absurd h (by simp)
  · rw [if_neg h0] at h
    simp at h

/-- Every member of a neighbor list differs from the center and lies
inside the grid bounds. -/
lemma neighbor_coord_mem {R C r c : ℕ} {q : Coord} (h : q ∈ neighbor_coord R C (r, c)) :
    q ≠ (r, c) ∧ q.1 < R ∧ q.2 < C := by
  unfold neighbor_coord at h
  simp only [List.mem_flatMap, List.mem_filterMap] at h
  obtain ⟨dx, hdx, dy, hdy, hq⟩ := h
  by_cases hcond : dx ≠ 0 ∨ dy ≠ 0
  · rw [if_pos hcond] at hq
    rcases hx : (checkedAddSigned r dx).bind (upperBound R) with _ | x <;> rw [hx] at hq
    · exact absurd hq (by simp)
    · rcases hy : (checkedAddSigned c dy).bind (upperBound C) with _ | y <;> rw [hy] at hq
      · exact absurd hq (by simp)
      · have hq' : q = (x, y) := (Option.some.inj hq).symm
        obtain ⟨hxf, hxb⟩ := bind_upper_facts hx
        obtain ⟨hyf, hyb⟩ := bind_upper_facts hy
        subst hq'
        refine ⟨?_, hxb, hyb⟩
        intro heq
        have hxr : x = r := (Prod.mk.injEq x y r c ▸ heq : x = r ∧ y = c).1
        have hyc : y = c := (Prod.mk.injEq x y r c ▸ heq : x = r ∧ y = c).2
        rcases hcond with hd | hd <;> omega
  · rw [if_neg hcond] at hq
    exact absurd hq (by simp)

/-! ### Claim theorems -/

/-- C4: for every step, the `coop_actions` field of the returned
`Metric` equals the number of ordered pairs (cell, neighbor) whose
phase-2 decided (pre-noise) action is `Coop` — one decided action per
cell per neighbor — and the count does not depend on the noise
parameter or on the noise draws (noise is applied only after the
decided actions are recorded). -/
theorem step_coop_actions (e : Environment) (randAct : Coord → Coord → Action)
    (uM uT uM' uT' : Coord → Coord → ℚ) (p' : ℚ) :
    (e.step randAct uM uT).2.coop_actions
        = ((decidedActions e.num_row e.num_col randAct
            (adaptPass e.num_row e.num_col e.grid)).map (fun kv => kv.2)).countP
            (fun a => a = Action.Coop)
      ∧ (e.step randAct uM uT).2.coop_actions
        = (Environment.step { e with noise := p' } randAct uM' uT').2.coop_actions := by
  constructor
  · simp only [Environment.step]
    rw [decidePass_snd]
  · rfl

/-- C8: the payoff function satisfies the defined table exactly. -/
theorem score_table :
    Environment.score Action.Coop Action.Coop = 3 ∧
    Environment.score Action.Deflect Action.Coop = 4 ∧
    Environment.score Action.Coop Action.Deflect = 0 ∧
    Environment.score Action.Deflect Action.Deflect = 0 :=
  ⟨rfl, rfl, rfl, rfl⟩

/-- C6: `Agent::adapt` changes the agent's strategy to the strategy of a
maximal-score neighbor exactly when the maximum neighbor score strictly
exceeds the agent's own score, leaves the strategy unchanged otherwise
(in particular for an empty neighbor list), and mutates nothing but the
strategy field. -/
theorem adapt_spec (a : Agent) (ns : List Agent) :
    ((a.adapt ns).coord = a.coord ∧ (a.adapt ns).score = a.score ∧
      (a.adapt ns).history = a.history) ∧
    ((∃ n ∈ ns, a.score < n.score) →
      ∃ n ∈ ns, (∀ m ∈ ns, m.score ≤ n.score) ∧ a.score < n.score ∧
        (a.adapt ns).strategy = n.strategy) ∧
    ((∀ n ∈ ns, n.score ≤ a.score) → (a.adapt ns).strategy = a.strategy) ∧
    a.adapt [] = a := by
  cases ns with
  | nil =>
    refine ⟨⟨rfl, rfl, rfl⟩, ?_, fun _ => rfl, rfl⟩
    rintro ⟨n, hn, -⟩
    exact absurd hn (List.not_mem_nil n)
  | cons x xs =>
    obtain ⟨m, hm, hmem, hmax⟩ := maxByScore_spec x xs
    have hadapt : a.adapt (x :: xs) =
        if m.score > a.score then { a with strategy := m.strategy } else a := by
      unfold Agent.adapt
      rw [hm]
    refine ⟨?_, ?_, ?_, rfl⟩
    · rw [hadapt]
      by_cases hgt : m.score > a.score <;> simp [hgt]
    · rintro ⟨n, hn, hlt⟩
      have hgt : m.score > a.score := lt_of_lt_of_le hlt (hmax n hn)
      refine ⟨m, hmem, hmax, hgt, ?_⟩
      rw [hadapt, if_pos hgt]
    · intro hall
      rw [hadapt, if_neg (not_lt.mpr (hall m hmem))]

/-- Witness for `adapt_spec`: one neighbor with score 5 strictly
dominates an agent with score 0, and the agent copies its strategy. -/
theorem adapt_spec_witness :
    ∃ n ∈ [Agent.mk (0, 1) [] Strategy.Deflect 5],
      (∀ m ∈ [Agent.mk (0, 1) [] Strategy.Deflect 5], m.score ≤ n.score) ∧
      (Agent.new (0, 0) Strategy.TicToc).score < n.score ∧
      ((Agent.new (0, 0) Strategy.TicToc).adapt
        [Agent.mk (0, 1) [] Strategy.Deflect 5]).strategy = n.strategy :=
  (adapt_spec (Agent.new (0, 0) Strategy.TicToc)
      [Agent.mk (0, 1) [] Strategy.Deflect 5]).2.1
    ⟨Agent.mk (0, 1) [] Strategy.Deflect 5, by simp, by norm_num [Agent.new]⟩

/-- C10: `Agent::adapt` is deterministic given the supplied neighbor
list: when several neighbors tie for the maximal score and it strictly
exceeds the agent's own, the strategy of the last maximal-score
neighbor in list order is copied (`max_by` keeps the later of equal
elements); the engine supplies that list in the fixed row-major
neighbor-offset enumeration of `neighbor_coord`, exhibited here on the
interior cell (1,1) of a 3×3 grid. -/
theorem adapt_tie_break :
    (neighbor_coord 3 3 (1, 1)
        = [(0, 0), (0, 1), (0, 2), (1, 0), (1, 2), (2, 0), (2, 1), (2, 2)]) ∧
    (∀ (a m : Agent) (l₁ l₂ : List Agent),
      (∀ y ∈ l₁, y.score ≤ m.score) → (∀ y ∈ l₂, y.score < m.score) →
      a.score < m.score →
      (a.adapt (l₁ ++ m :: l₂)).strategy = m.strategy) := by
  refine ⟨by decide, ?_⟩
  intro a m l₁ l₂ h₁ h₂ hm
  unfold Agent.adapt
  rw [maxByScore_last_max m l₁ l₂ h₁ h₂]
  simp only [if_pos hm]

/-- Witness for `adapt_tie_break`: two neighbors tie at score 5; the
later one (strategy `Deflect`) is copied, not the earlier (`TicToc`). -/
theorem adapt_tie_break_witness :
    ((Agent.new (1, 1) Strategy.Coop).adapt
        ([Agent.mk (0, 0) [] Strategy.TicToc 5] ++
          Agent.mk (0, 1) [] Strategy.Deflect 5 ::
            [Agent.mk (0, 2) [] Strategy.Coop 3])).strategy = Strategy.Deflect :=
  adapt_tie_break.2 (Agent.new (1, 1) Strategy.Coop)
    (Agent.mk (0, 1) [] Strategy.Deflect 5)
    [Agent.mk (0, 0) [] Strategy.TicToc 5]
    [Agent.mk (0, 2) [] Strategy.Coop 3]
    (by intro y hy; simp at hy; rw [hy]) (by intro y hy; simp at hy; rw [hy]; norm_num)
    (by norm_num [Agent.new])

/-- C7: `Strategy::get_action` is history-independent for `Deflect` and
`Coop`, `TicToc` repeats the last history element and answers `Coop` on
an empty history, and an absent history entry behaves as an empty
sequence (never an error). -/
theorem get_action_spec :
    (∀ (h : List Action) (pick : Action),
      Strategy.get_action Strategy.Deflect h pick = Action.Deflect ∧
      Strategy.get_action Strategy.Coop h pick = Action.Coop) ∧
    (∀ pick : Action, Strategy.get_action Strategy.TicToc [] pick = Action.Coop) ∧
    (∀ (init : List Action) (x pick : Action),
      Strategy.get_action Strategy.TicToc (init ++ [x]) pick = x) ∧
    (∀ (a other : Agent) (pick : Action), histGet a.history other.coord = none →
      a.get_action other pick = a.strategy.get_action [] pick) := by
  refine ⟨fun h pick => ⟨rfl, rfl⟩, fun pick => rfl, ?_, ?_⟩
  · intro init x pick
    simp [Strategy.get_action, List.getLast?_concat]
  · intro a other pick hmiss
    unfold Agent.get_action
    rw [hmiss]
    rfl

/-- Witness for `get_action_spec`: a fresh `TicToc` agent has no history
entry for its opponent and decides like an empty history, i.e. `Coop`. -/
theorem get_action_spec_witness :
    (Agent.new (0, 0) Strategy.TicToc).get_action (Agent.new (0, 1) Strategy.Deflect)
        Action.Deflect
      = (Agent.new (0, 0) Strategy.TicToc).strategy.get_action [] Action.Deflect :=
  get_action_spec.2.2.2 (Agent.new (0, 0) Strategy.TicToc)
    (Agent.new (0, 1) Strategy.Deflect) Action.Deflect rfl

/-- C1 counterexample: on a 1×3 grid with start-of-step scores 10, 5, 0
and strategies `Coop`, `TicToc`, `Deflect`, the in-place phase-1 pass
gives cell (0,2) the strategy `Coop` — the strategy its best neighbor
(0,1) acquired *earlier in the same pass* — while the double-buffered
reference pass gives it (0,1)'s start-of-step strategy `TicToc`.  The
two passes are not equal. -/
theorem adaptPass_ne_snapshot :
    ((adaptPass 1 3
        [Agent.mk (0, 0) [] Strategy.Coop 10,
         Agent.mk (0, 1) [] Strategy.TicToc 5,
         Agent.mk (0, 2) [] Strategy.Deflect 0]).map Agent.strategy
      = [Strategy.Coop, Strategy.Coop, Strategy.Coop]) ∧
    ((adaptPassSnapshot 1 3
        [Agent.mk (0, 0) [] Strategy.Coop 10,
         Agent.mk (0, 1) [] Strategy.TicToc 5,
         Agent.mk (0, 2) [] Strategy.Deflect 0]).map Agent.strategy
      = [Strategy.Coop, Strategy.Coop, Strategy.TicToc]) ∧
    adaptPass 1 3
        [Agent.mk (0, 0) [] Strategy.Coop 10,
         Agent.mk (0, 1) [] Strategy.TicToc 5,
         Agent.mk (0, 2) [] Strategy.Deflect 0]
      ≠ adaptPassSnapshot 1 3
        [Agent.mk (0, 0) [] Strategy.Coop 10,
         Agent.mk (0, 1) [] Strategy.TicToc 5,
         Agent.mk (0, 2) [] Strategy.Deflect 0] := by
  decide

/-- C1 amended: the in-place phase-1 pass preserves every agent's
score, coordinate and history, so each cell's adoption decision (whether
it adopts, and which neighbor scores highest) is taken on start-of-step
scores; but the strategy value copied may be one the neighbor acquired
earlier in the same pass (see `adaptPass_ne_snapshot`), so the pass is
not equal to the double-buffered reference pass. -/
theorem adaptPass_preserves_all_but_strategy (numRow numCol : ℕ) (g : List Agent)
    (i : ℕ) (a : Agent) (h : g[i]? = some a) :
    ∃ b, (adaptPass numRow numCol g)[i]? = some b ∧
      b.score = a.score ∧ b.coord = a.coord ∧ b.history = a.history :=
  adaptPass_preserves_fields numRow numCol g i a h

/-- Witness for `adaptPass_preserves_all_but_strategy` at cell (0,1) of
the counterexample grid. -/
theorem adaptPass_preserves_all_but_strategy_witness :
    ∃ b, (adaptPass 1 3
        [Agent.mk (0, 0) [] Strategy.Coop 10,
         Agent.mk (0, 1) [] Strategy.TicToc 5,
         Agent.mk (0, 2) [] Strategy.Deflect 0])[1]? = some b ∧
      b.score = (Agent.mk (0, 1) [] Strategy.TicToc 5).score ∧
      b.coord = (Agent.mk (0, 1) [] Strategy.TicToc 5).coord ∧
      b.history = (Agent.mk (0, 1) [] Strategy.TicToc 5).history :=
  adaptPass_preserves_all_but_strategy 1 3
    [Agent.mk (0, 0) [] Strategy.Coop 10,
     Agent.mk (0, 1) [] Strategy.TicToc 5,
     Agent.mk (0, 2) [] Strategy.Deflect 0]
    1 (Agent.mk (0, 1) [] Strategy.TicToc 5) (by decide)

/-- C9: every payoff in the table is nonnegative, and one `step` call
never decreases any agent's cumulative score (phase 1 preserves scores,
phase 2 leaves the grid untouched, and phase 3 only adds table payoffs),
so over any sequence of steps scores are monotonically non-decreasing. -/
theorem step_score_monotone :
    (∀ a b : Action, 0 ≤ Environment.score a b) ∧
    (∀ (e : Environment) (randAct : Coord → Coord → Action)
       (uM uT : Coord → Coord → ℚ) (i : ℕ) (a : Agent),
      e.grid[i]? = some a →
      ∃ b, (e.step randAct uM uT).1.grid[i]? = some b ∧ a.score ≤ b.score) := by
  refine ⟨score_nonneg, ?_⟩
  intro e randAct uM uT i a h
  obtain ⟨b1, hb1, hs1, -, -⟩ := adaptPass_preserves_fields e.num_row e.num_col e.grid i a h
  have hgrid : (e.step randAct uM uT).1.grid =
      applyPass e.num_row e.num_col e.noise uM uT
        (decidePass e.num_row e.num_col randAct (adaptPass e.num_row e.num_col e.grid)).2
        (decidePass e.num_row e.num_col randAct (adaptPass e.num_row e.num_col e.grid)).1 :=
    rfl
  rw [hgrid, decidePass_fst]
  obtain ⟨b, hb, hle⟩ := applyPass_score_le e.num_row e.num_col e.noise uM uT
    (decidePass e.num_row e.num_col randAct (adaptPass e.num_row e.num_col e.grid)).2
    (adaptPass e.num_row e.num_col e.grid) i b1 hb1
  exact ⟨b, hb, hs1 ▸ hle⟩

/-- Witness for `step_score_monotone` on the 1×2 `Coop`/`Deflect` grid:
agent (0,1) starts at score 0 and one step does not decrease it. -/
theorem step_score_monotone_witness :
    ∃ b, ((Environment.mk 1 2 0
        [Agent.new (0, 0) Strategy.Coop, Agent.new (0, 1) Strategy.Deflect]).step
          (fun _ _ => Action.Coop) (fun _ _ => 1/2) (fun _ _ => 1/2)).1.grid[1]?
        = some b ∧
      (Agent.new (0, 1) Strategy.Deflect).score ≤ b.score :=
  step_score_monotone.2
    (Environment.mk 1 2 0 [Agent.new (0, 0) Strategy.Coop, Agent.new (0, 1) Strategy.Deflect])
    (fun _ _ => Action.Coop) (fun _ _ => 1/2) (fun _ _ => 1/2)
    1 (Agent.new (0, 1) Strategy.Deflect) (by decide)

/-- C2 counterexample: the constructor performs no validation — a
zero-row grid and an out-of-range noise probability of 7 are accepted
as-is, producing a well-defined (empty-grid) environment with the noise
stored unclamped, instead of failing fast. -/
theorem new_no_validation :
    (Environment.new_with_agent_func 0 3 7 (fun c => Agent.new c Strategy.Coop)).grid = [] ∧
    (Environment.new_with_agent_func 0 3 7 (fun c => Agent.new c Strategy.Coop)).num_row = 0 ∧
    (Environment.new_with_agent_func 0 3 7 (fun c => Agent.new c Strategy.Coop)).noise = 7 :=
  ⟨rfl, rfl, rfl⟩

/-- C2 amended: the constructor accepts every configuration without
validation or clamping, storing the dimensions and noise unchanged and
building a row-major grid of exactly `num_row × num_col` agents, with
the factory's agent for coordinate `(i, j)` at index `num_col * i + j`. -/
theorem new_with_agent_func_spec (R C : ℕ) (p : ℚ) (f : Coord → Agent) :
    (Environment.new_with_agent_func R C p f).num_row = R ∧
    (Environment.new_with_agent_func R C p f).num_col = C ∧
    (Environment.new_with_agent_func R C p f).noise = p ∧
    (Environment.new_with_agent_func R C p f).grid.length = R * C ∧
    (∀ i j : ℕ, i < R → j < C →
      (Environment.new_with_agent_func R C p f).grid[C * i + j]? = some (f (i, j))) := by
  refine ⟨rfl, rfl, rfl, ?_, ?_⟩
  · simp [Environment.new_with_agent_func, allCoords_length]
  · intro i j hi hj
    simp [Environment.new_with_agent_func, List.getElem?_map, allCoords_getElem R C i j hi hj]

/-- Witness for `new_with_agent_func_spec` on a 2×3 grid: agent (1,2)
sits at row-major index 5. -/
theorem new_with_agent_func_spec_witness :
    (Environment.new_with_agent_func 2 3 (1/10) (fun c => Agent.new c Strategy.TicToc)).grid.length
        = 2 * 3 ∧
    (Environment.new_with_agent_func 2 3 (1/10)
        (fun c => Agent.new c Strategy.TicToc)).grid[3 * 1 + 2]?
      = some (Agent.new (1, 2) Strategy.TicToc) :=
  ⟨(new_with_agent_func_spec 2 3 (1/10) (fun c => Agent.new c Strategy.TicToc)).2.2.2.1,
   (new_with_agent_func_spec 2 3 (1/10) (fun c => Agent.new c Strategy.TicToc)).2.2.2.2
     1 2 (by norm_num) (by norm_num)⟩

/-- C3 counterexample: in a 1×1 grid the cell (0,0) is a corner (its
row is both 0 and R−1, its column both 0 and C−1), yet its neighbor
list is empty — not of size 3 as the claim states for corners. -/
theorem neighbor_counts_degenerate :
    ((0 = 0 ∨ 0 + 1 = 1) ∧ (0 = 0 ∨ 0 + 1 = 1)) ∧
    (neighbor_coord 1 1 (0, 0)).length = 0 ∧
    (neighbor_coord 1 1 (0, 0)).length ≠ 3 := by
  decide

/-- C3 amended: for every grid size the neighbor list never contains
the cell itself nor any out-of-bounds coordinate; and on grids with at
least two rows and two columns the neighbor count is exactly 8 for
interior cells, 3 for corners, and 5 for non-corner edge cells
(degenerate one-row/one-column grids have smaller neighbor sets). -/
theorem neighbor_counts :
    (∀ (R C r c : ℕ), (r, c) ∉ neighbor_coord R C (r, c) ∧
      ∀ q ∈ neighbor_coord R C (r, c), q.1 < R ∧ q.2 < C) ∧
    (∀ (R C r c : ℕ), 2 ≤ R → 2 ≤ C → r < R → c < C →
      ((0 < r ∧ r + 1 < R ∧ 0 < c ∧ c + 1 < C →
        (neighbor_coord R C (r, c)).length = 8) ∧
       ((r = 0 ∨ r + 1 = R) ∧ (c = 0 ∨ c + 1 = C) →
        (neighbor_coord R C (r, c)).length = 3) ∧
       ((r = 0 ∨ r + 1 = R ∨ c = 0 ∨ c + 1 = C) ∧
          ¬ ((r = 0 ∨ r + 1 = R) ∧ (c = 0 ∨ c + 1 = C)) →
        (neighbor_coord R C (r, c)).length = 5))) := by
  constructor
  · intro R C r c
    constructor
    · intro hmem
      exact absurd rfl (neighbor_coord_mem hmem).1
    · intro q hq
      exact (neighbor_coord_mem hq).2
  · intro R C r c hR hC hr hc
    refine ⟨?_, ?_, ?_⟩ <;> intro hcl <;>
      rw [neighbor_coord_length R C r c hr hc] <;> split_ifs <;> omega

/-- Witness for `neighbor_counts` on a 3×3 grid: interior cell (1,1)
has 8 neighbors, corner (0,0) has 3, edge cell (0,1) has 5. -/
theorem neighbor_counts_witness :
    (neighbor_coord 3 3 (1, 1)).length = 8 ∧
    (neighbor_coord 3 3 (0, 0)).length = 3 ∧
    (neighbor_coord 3 3 (0, 1)).length = 5 :=
  ⟨(neighbor_counts.2 3 3 1 1 (by norm_num) (by norm_num) (by norm_num) (by norm_num)).1
      (by norm_num),
   (neighbor_counts.2 3 3 0 0 (by norm_num) (by norm_num) (by norm_num) (by norm_num)).2.1
      (by norm_num),
   (neighbor_counts.2 3 3 0 1 (by norm_num) (by norm_num) (by norm_num) (by norm_num)).2.2
      (by norm_num)⟩

lemma applyPass_zero (numRow numCol : ℕ) (uM uT : Coord → Coord → ℚ)
    (hM : ∀ p q : Coord, 0 ≤ uM p q) (hT : ∀ p q : Coord, 0 ≤ uT p q)
    (acts : ActionsMap) (g : List Agent) :
    applyPass numRow numCol 0 uM uT acts g = applyPassNoNoise numRow numCol acts g := by
  unfold applyPass applyPassNoNoise
  congr 2
  funext a ns s
  congr 1
  have hstep :
      (fun (a' : Agent) (n : Agent) =>
        a'.recordScore n
          ((lookupAction acts (n.coord, a'.coord)).withNoise 0 (uT a'.coord n.coord))
          (Environment.score
            ((lookupAction acts (a'.coord, n.coord)).withNoise 0 (uM a'.coord n.coord))
            ((lookupAction acts (n.coord, a'.coord)).withNoise 0 (uT a'.coord n.coord))))
      = (fun (a' : Agent) (n : Agent) =>
          a'.recordScore n (lookupAction acts (n.coord, a'.coord))
            (Environment.score (lookupAction acts (a'.coord, n.coord))
              (lookupAction acts (n.coord, a'.coord)))) := by
    funext a' n
    rw [show ∀ b : Action, b.withNoise 0 (uM a'.coord n.coord) = b from fun b => by
        unfold Action.withNoise; rw [if_neg (not_lt.mpr (hM a'.coord n.coord))],
      show ∀ b : Action, b.withNoise 0 (uT a'.coord n.coord) = b from fun b => by
        unfold Action.withNoise; rw [if_neg (not_lt.mpr (hT a'.coord n.coord))]]
  exact congrFun (congrFun (congrArg List.foldl hstep) a) ns

/-- C5: end-to-end on a 1×2 grid with A = `Coop` at (0,0), B = `Deflect`
at (0,1) and noise 0 (draws nonnegative, as real draws are): the decided
actions are A→B = `Coop` and B→A = `Deflect`; one `step` leaves
A.score = 0 (payoff `score(Coop,Deflect) = 0`) and B.score = 4 (payoff
`score(Deflect,Coop) = 4`); and the adapt phase of the next step moves
A's strategy to `Deflect` because B's score strictly dominates. -/
theorem step_1x2_end_to_end (randAct : Coord → Coord → Action) (uM uT : Coord → Coord → ℚ)
    (hM : ∀ p q : Coord, 0 ≤ uM p q) (hT : ∀ p q : Coord, 0 ≤ uT p q) :
    lookupAction
        (decidePass 1 2 randAct (adaptPass 1 2
          [Agent.new (0, 0) Strategy.Coop, Agent.new (0, 1) Strategy.Deflect])).2
        ((0, 0), (0, 1)) = Action.Coop ∧
    lookupAction
        (decidePass 1 2 randAct (adaptPass 1 2
          [Agent.new (0, 0) Strategy.Coop, Agent.new (0, 1) Strategy.Deflect])).2
        ((0, 1), (0, 0)) = Action.Deflect ∧
    (((Environment.mk 1 2 0
          [Agent.new (0, 0) Strategy.Coop, Agent.new (0, 1) Strategy.Deflect]).step
        randAct uM uT).1.grid.map Agent.score) = [0, 4] ∧
    ((adaptPass 1 2
        ((Environment.mk 1 2 0
            [Agent.new (0, 0) Strategy.Coop, Agent.new (0, 1) Strategy.Deflect]).step
          randAct uM uT).1.grid).map Agent.strategy)
      = [Strategy.Deflect, Strategy.Deflect] := by
  have hgrid : ((Environment.mk 1 2 0
        [Agent.new (0, 0) Strategy.Coop, Agent.new (0, 1) Strategy.Deflect]).step
          randAct uM uT).1.grid
      = applyPass 1 2 0 uM uT
          (decidePass 1 2 randAct (adaptPass 1 2
            [Agent.new (0, 0) Strategy.Coop, Agent.new (0, 1) Strategy.Deflect])).2
          (decidePass 1 2 randAct (adaptPass 1 2
            [Agent.new (0, 0) Strategy.Coop, Agent.new (0, 1) Strategy.Deflect])).1 := rfl
  have hacts : (decidePass 1 2 randAct (adaptPass 1 2
        [Agent.new (0, 0) Strategy.Coop, Agent.new (0, 1) Strategy.Deflect])).2
      = [(((0, 0), (0, 1)), Action.Coop), (((0, 1), (0, 0)), Action.Deflect)] := rfl
  have hfst : (decidePass 1 2 randAct (adaptPass 1 2
        [Agent.new (0, 0) Strategy.Coop, Agent.new (0, 1) Strategy.Deflect])).1
      = [Agent.new (0, 0) Strategy.Coop, Agent.new (0, 1) Strategy.Deflect] := rfl
  have hg2 : applyPassNoNoise 1 2
        [(((0, 0), (0, 1)), Action.Coop), (((0, 1), (0, 0)), Action.Deflect)]
        [Agent.new (0, 0) Strategy.Coop, Agent.new (0, 1) Strategy.Deflect]
      = [Agent.mk (0, 0) [((0, 1), [Action.Deflect])] Strategy.Coop 0,
         Agent.mk (0, 1) [((0, 0), [Action.Coop])] Strategy.Deflect 4] := by
    simp only [applyPassNoNoise, for_each_cell, allCoords, List.range_succ, List.range_zero,
      List.nil_append, List.map_cons, List.map_nil, List.flatMap_cons, List.flatMap_nil,
      List.append_nil, List.foldl_cons, List.foldl_nil]
    norm_num [to_vec_index, neighbor_coord, neighborAgents, checkedAddSigned, upperBound,
      lookupAction, Agent.recordScore, histRecord, histGet, Environment.score, Agent.new,
      List.filterMap_cons, List.find?]
  refine ⟨rfl, rfl, ?_, ?_⟩ <;>
    rw [hgrid, applyPass_zero 1 2 uM uT hM hT, hacts, hfst, hg2] <;> decide

/-- Witness for `step_1x2_end_to_end` with constant draw 1/2 on both
noise oracles. -/
theorem step_1x2_end_to_end_witness :
    lookupAction
        (decidePass 1 2 (fun _ _ => Action.Coop) (adaptPass 1 2
          [Agent.new (0, 0) Strategy.Coop, Agent.new (0, 1) Strategy.Deflect])).2
        ((0, 0), (0, 1)) = Action.Coop ∧
    lookupAction
        (decidePass 1 2 (fun _ _ => Action.Coop) (adaptPass 1 2
          [Agent.new (0, 0) Strategy.Coop, Agent.new (0, 1) Strategy.Deflect])).2
        ((0, 1), (0, 0)) = Action.Deflect ∧
    (((Environment.mk 1 2 0
          [Agent.new (0, 0) Strategy.Coop, Agent.new (0, 1) Strategy.Deflect]).step
        (fun _ _ => Action.Coop) (fun _ _ => 1/2) (fun _ _ => 1/2)).1.grid.map Agent.score)
      = [0, 4] ∧
    ((adaptPass 1 2
        ((Environment.mk 1 2 0
            [Agent.new (0, 0) Strategy.Coop, Agent.new (0, 1) Strategy.Deflect]).step
          (fun _ _ => Action.Coop) (fun _ _ => 1/2) (fun _ _ => 1/2)).1.grid).map Agent.strategy)
      = [Strategy.Deflect, Strategy.Deflect] :=
  step_1x2_end_to_end (fun _ _ => Action.Coop) (fun _ _ => 1/2) (fun _ _ => 1/2)
    (fun _ _ => by norm_num) (fun _ _ => by norm_num)

end CoopSim
